import Mathlib

/-!
Verification of the FastAPI RAG backend (`fastapi_RAG`): a shallow embedding
of the retrieval-augmented query pipeline, the PDF chunker, the vector-store
adapter and the HTTP routes, together with theorems settling the claims of
the specification against the code.

Python strings are modelled as `String`/`List Char`; the external services
(ChromaDB similarity search, the Mistral language model, pypdf extraction,
the filesystem) are modelled as explicit parameters or explicit state, as the
specification treats them as external capabilities.

Recursive scanners are written with an explicit fuel argument (initialised to
the input length, which always suffices) so that every definition is
structurally recursive and evaluates inside the kernel.
-/

namespace FastapiRag

/-! ### Python string primitives -/

/-- Whitespace characters recognised by Python's regex class `\s` and by
`str.strip()` (the ASCII whitespace characters; further Unicode whitespace
code points behave identically and never occur in this development). -/
def pySpace (c : Char) : Bool :=
  c = ' ' || c = '\t' || c = '\n' || c = '\r' || c = '\x0b' || c = '\x0c'

/-- Python's literal character class `[A-Z]`: ASCII uppercase letters. -/
def upperAZ (c : Char) : Bool :=
  'A' ≤ c && c ≤ 'Z'

/-- Python's literal character class `[.!?]`: sentence-terminal punctuation. -/
def sentEnd (c : Char) : Bool :=
  c = '.' || c = '!' || c = '?'

/-- Python `str.strip()` on a list of characters: remove leading and trailing
whitespace. -/
def pyStripL (l : List Char) : List Char :=
  ((l.dropWhile pySpace).reverse.dropWhile pySpace).reverse

/-- Python `str.strip()`. -/
def pyStrip (s : String) : String :=
  String.mk (pyStripL s.data)

/-- Decimal digits of `n`, most significant first; `fuel ≥ n` holds at every
call, so the fuel-exhausted branch is never taken. -/
def natDigitsF : Nat → Nat → List Char
  | 0, n => [Nat.digitChar (n % 10)]
  | fuel + 1, n =>
    if n < 10 then [Nat.digitChar n]
    else natDigitsF fuel (n / 10) ++ [Nat.digitChar (n % 10)]

/-- Python `str(n)` for a non-negative integer, as its list of decimal
digits. -/
def natDigits (n : Nat) : List Char :=
  natDigitsF n n

/-- Python `str(n)` for a `Nat`-valued integer. -/
def pyStr (n : Nat) : String :=
  String.mk (natDigits n)

/-- Python `sep.join(parts)`. -/
def pyJoin (sep : String) : List String → String
  | [] => ""
  | [x] => x
  | x :: y :: rest => x ++ sep ++ pyJoin sep (y :: rest)

/-! ### The Chunker: `PDFProcessor._split_into_sentences`
(pdf_processor.py lines 52-67), built on
`re.split(r"(?<=[.!?])\s+(?=[A-Z])", text)`. -/

/-- `afterUpper rest` holds when the first non-whitespace character of `rest`
exists and is an ASCII uppercase letter. -/
def afterUpper : List Char → Bool
  | [] => false
  | c :: rest => if pySpace c then afterUpper rest else upperAZ c

/-- The part of the pattern `(?<=[.!?])\s+(?=[A-Z])` after the lookbehind:
the text starts with at least one whitespace character and the first
non-whitespace character after that run is an ASCII uppercase letter
(the `\s+` run is maximal because an uppercase letter is not whitespace). -/
def boundaryFollows : List Char → Bool
  | [] => false
  | c :: rest => pySpace c && afterUpper rest

/-- Prepend a character to the first piece of a piece list. -/
def consHead (c : Char) : List (List Char) → List (List Char)
  | [] => [[c]]
  | p :: ps => (c :: p) :: ps

/-- `re.split(r"(?<=[.!?])\s+(?=[A-Z])", text)` in left-to-right scan form:
whenever a sentence-terminal character is immediately followed by a
whitespace run whose first following character is ASCII uppercase, the
current piece ends there, the whitespace run is consumed as the separator,
and scanning resumes at the uppercase character. Fuel-structured; the fuel
never runs out when initialised to the input length. -/
def reSplitSentF : Nat → List Char → List (List Char)
  | _, [] => [[]]
  | 0, c :: rest => [c :: rest]
  | fuel + 1, c :: rest =>
    if sentEnd c && boundaryFollows rest then
      [c] :: reSplitSentF fuel (rest.dropWhile pySpace)
    else
      consHead c (reSplitSentF fuel rest)

/-- `re.split(r"(?<=[.!?])\s+(?=[A-Z])", text)` on a list of characters. -/
def reSplitSent (l : List Char) : List (List Char) :=
  reSplitSentF l.length l

/-- The separators consumed by the split, in order: the matched whitespace
runs of the pattern (fuel-structured like `reSplitSentF`). -/
def reSplitSepsF : Nat → List Char → List (List Char)
  | _, [] => []
  | 0, _ :: _ => []
  | fuel + 1, c :: rest =>
    if sentEnd c && boundaryFollows rest then
      rest.takeWhile pySpace :: reSplitSepsF fuel (rest.dropWhile pySpace)
    else
      reSplitSepsF fuel rest

/-- The separators consumed by `reSplitSent`, in order. -/
def reSplitSeps (l : List Char) : List (List Char) :=
  reSplitSepsF l.length l

/-- `PDFProcessor._split_into_sentences` on character lists: `re.split` at
the boundary pattern, then `[s.strip() for s in sentences if s.strip()]`. -/
def splitIntoSentencesL (l : List Char) : List (List Char) :=
  ((reSplitSent l).map pyStripL).filter (fun s => !s.isEmpty)

/-- `PDFProcessor._split_into_sentences` (pdf_processor.py lines 52-67). -/
def splitIntoSentences (text : String) : List String :=
  (splitIntoSentencesL text.data).map String.mk

/-! ### Interleaving pieces and separators -/

/-- Glue split pieces back together with their separators:
`glue [p0, .., pn] [s0, .., s(n-1)] = p0 ++ s0 ++ p1 ++ .. ++ pn`. -/
def glue : List (List Char) → List (List Char) → List Char
  | [], _ => []
  | p :: _, [] => p
  | p :: ps, s :: ss => p ++ s ++ glue ps ss

/-- A piece list is correctly chained when every piece followed by another
piece ends with sentence-terminal punctuation and every piece preceded by
another piece starts with an ASCII uppercase letter. -/
def chainOk : List (List Char) → Bool
  | p :: q :: rest =>
    (match p.getLast? with | some c => sentEnd c | none => false)
      && (match q.head? with | some c => upperAZ c | none => false)
      && chainOk (q :: rest)
  | _ => true

/-- A split position occurs inside the text: some sentence-terminal character
is followed by a whitespace run whose first following character is ASCII
uppercase. -/
def hasBoundary : List Char → Bool
  | [] => false
  | c :: rest => (sentEnd c && boundaryFollows rest) || hasBoundary rest

/-! ### Basic lemmas on the chunker -/

theorem reSplitSentF_ne_nil (fuel : Nat) (l : List Char) :
    reSplitSentF fuel l ≠ [] := by
  induction fuel, l using reSplitSentF.induct with
  | case1 => simp [reSplitSentF]
  | case2 => simp [reSplitSentF]
  | case3 fuel c rest h ih => simp [reSplitSentF, h]
  | case4 fuel c rest h ih =>
    rw [reSplitSentF, if_neg h]
    cases hr : reSplitSentF fuel rest with
    | nil => simp [consHead]
    | cons p ps => simp [consHead]

theorem reSplitSent_ne_nil (l : List Char) : reSplitSent l ≠ [] :=
  reSplitSentF_ne_nil l.length l

theorem reSplitSentF_head_cons (fuel : Nat) (c : Char) (rest : List Char) :
    ∃ t ps, reSplitSentF fuel (c :: rest) = (c :: t) :: ps := by
  cases fuel with
  | zero => exact ⟨rest, [], rfl⟩
  | succ fuel =>
    rw [reSplitSentF]
    by_cases h : (sentEnd c && boundaryFollows rest) = true
    · rw [if_pos h]; exact ⟨[], _, rfl⟩
    · rw [if_neg h]
      cases hr : reSplitSentF fuel rest with
      | nil => exact ⟨[], [], rfl⟩
      | cons p ps => exact ⟨p, ps, rfl⟩

theorem reSplitSentF_length (fuel : Nat) (l : List Char) :
    (reSplitSentF fuel l).length = (reSplitSepsF fuel l).length + 1 := by
  induction fuel, l using reSplitSentF.induct with
  | case1 => simp [reSplitSentF, reSplitSepsF]
  | case2 => simp [reSplitSentF, reSplitSepsF]
  | case3 fuel c rest h ih =>
    rw [reSplitSentF, reSplitSepsF, if_pos h, if_pos h]
    simp [ih]
  | case4 fuel c rest h ih =>
    rw [reSplitSentF, reSplitSepsF, if_neg h, if_neg h]
    cases hr : reSplitSentF fuel rest with
    | nil => exact absurd hr (reSplitSentF_ne_nil fuel rest)
    | cons p ps => rw [hr] at ih; simpa [consHead] using ih

theorem glue_consHead (c : Char) (ps : List (List Char)) (ss : List (List Char))
    (hps : ps ≠ []) : glue (consHead c ps) ss = c :: glue ps ss := by
  cases ps with
  | nil => exact absurd rfl hps
  | cons p ps' =>
    cases ss with
    | nil => simp [consHead, glue]
    | cons s ss' => simp [consHead, glue]

theorem takeWhile_all_self (p : Char → Bool) (l : List Char) :
    (l.takeWhile p).all p = true := by
  rw [List.all_eq_true]
  intro x hx
  exact List.mem_takeWhile_imp hx

theorem boundaryFollows_takeWhile_ne_nil {l : List Char}
    (h : boundaryFollows l = true) : l.takeWhile pySpace ≠ [] := by
  cases l with
  | nil => simp [boundaryFollows] at h
  | cons c rest =>
    rw [boundaryFollows] at h
    have hc : pySpace c = true := ((Bool.and_eq_true _ _).mp h).1
    simp [List.takeWhile_cons, hc]

theorem afterUpper_dropWhile {l : List Char} (h : afterUpper l = true) :
    ∃ u r, l.dropWhile pySpace = u :: r ∧ upperAZ u = true := by
  induction l with
  | nil => simp [afterUpper] at h
  | cons c rest ih =>
    rw [afterUpper] at h
    by_cases hc : pySpace c = true
    · rw [if_pos hc] at h
      rw [List.dropWhile_cons, if_pos hc]
      exact ih h
    · rw [if_neg hc] at h
      rw [List.dropWhile_cons, if_neg hc]
      exact ⟨c, rest, rfl, h⟩

theorem boundaryFollows_dropWhile {l : List Char} (h : boundaryFollows l = true) :
    ∃ u r, l.dropWhile pySpace = u :: r ∧ upperAZ u = true := by
  cases l with
  | nil => simp [boundaryFollows] at h
  | cons c rest =>
    rw [boundaryFollows] at h
    obtain ⟨hc, hr⟩ := (Bool.and_eq_true _ _).mp h
    rw [List.dropWhile_cons, if_pos hc]
    exact afterUpper_dropWhile hr

theorem glue_reSplitF (fuel : Nat) (l : List Char) :
    glue (reSplitSentF fuel l) (reSplitSepsF fuel l) = l := by
  induction fuel, l using reSplitSentF.induct with
  | case1 => simp [reSplitSentF, reSplitSepsF, glue]
  | case2 => simp [reSplitSentF, reSplitSepsF, glue]
  | case3 fuel c rest h ih =>
    rw [reSplitSentF, reSplitSepsF, if_pos h, if_pos h]
    simp only [glue, ih, List.cons_append, List.nil_append]
    rw [List.takeWhile_append_dropWhile]
  | case4 fuel c rest h ih =>
    rw [reSplitSentF, reSplitSepsF, if_neg h, if_neg h]
    rw [glue_consHead c _ _ (reSplitSentF_ne_nil fuel rest), ih]

theorem seps_whitespaceF (fuel : Nat) (l : List Char) :
    (reSplitSepsF fuel l).all (fun s => !s.isEmpty && s.all pySpace) = true := by
  induction fuel, l using reSplitSepsF.induct with
  | case1 => simp [reSplitSepsF]
  | case2 => simp [reSplitSepsF]
  | case3 fuel c rest h ih =>
    rw [reSplitSepsF, if_pos h, List.all_cons]
    have hb : boundaryFollows rest = true := ((Bool.and_eq_true _ _).mp h).2
    have h1 : (rest.takeWhile pySpace).isEmpty = false := by
      have := boundaryFollows_takeWhile_ne_nil hb
      simpa [List.isEmpty_iff] using this
    simp [h1, takeWhile_all_self, ih]
  | case4 fuel c rest h ih =>
    rw [reSplitSepsF, if_neg h]
    exact ih

theorem reSplitF_head_extends (fuel : Nat) (l : List Char) :
    ∀ p ps, reSplitSentF fuel l = p :: ps → ∃ t, p ++ t = l := by
  induction fuel, l using reSplitSentF.induct with
  | case1 fuel =>
    intro p ps hp
    rw [reSplitSentF] at hp
    injection hp with h1 _
    exact ⟨[], by simp [← h1]⟩
  | case2 c rest =>
    intro p ps hp
    injection hp with h1 _
    exact ⟨[], by simp [← h1]⟩
  | case3 fuel c rest h ih =>
    intro p ps hp
    rw [reSplitSentF, if_pos h] at hp
    injection hp with h1 _
    exact ⟨rest, by simp [← h1]⟩
  | case4 fuel c rest h ih =>
    intro p ps hp
    rw [reSplitSentF, if_neg h] at hp
    cases hr : reSplitSentF fuel rest with
    | nil => exact absurd hr (reSplitSentF_ne_nil fuel rest)
    | cons q qs =>
      rw [hr] at hp
      simp only [consHead] at hp
      injection hp with h1 _
      obtain ⟨t, ht⟩ := ih q qs hr
      exact ⟨t, by rw [← h1]; simp [ht]⟩

theorem afterUpper_append {p : List Char} (t : List Char)
    (h : afterUpper p = true) : afterUpper (p ++ t) = true := by
  induction p with
  | nil => simp [afterUpper] at h
  | cons c r ih =>
    rw [afterUpper] at h
    by_cases hc : pySpace c = true
    · rw [if_pos hc] at h
      rw [List.cons_append, afterUpper, if_pos hc]
      exact ih h
    · rw [if_neg hc] at h
      rw [List.cons_append, afterUpper, if_neg hc]
      exact h

theorem boundaryFollows_append {p : List Char} (t : List Char)
    (h : boundaryFollows p = true) : boundaryFollows (p ++ t) = true := by
  cases p with
  | nil => simp [boundaryFollows] at h
  | cons c r =>
    rw [boundaryFollows] at h
    obtain ⟨h1, h2⟩ := (Bool.and_eq_true _ _).mp h
    rw [List.cons_append, boundaryFollows, h1, afterUpper_append t h2]
    rfl

theorem reSplitF_no_boundary (fuel : Nat) (l : List Char) (hfuel : l.length ≤ fuel) :
    (reSplitSentF fuel l).all (fun p => !hasBoundary p) = true := by
  induction fuel, l using reSplitSentF.induct with
  | case1 => simp [reSplitSentF, hasBoundary]
  | case2 c rest => simp at hfuel
  | case3 fuel c rest h ih =>
    rw [reSplitSentF, if_pos h, List.all_cons]
    have hsub : List.Sublist (rest.dropWhile pySpace) rest := List.dropWhile_sublist _
    have hdf : (rest.dropWhile pySpace).length ≤ fuel := by
      have := List.Sublist.length_le hsub
      simp at hfuel
      omega
    simp only [ih hdf, Bool.and_true]
    simp [hasBoundary, boundaryFollows]
  | case4 fuel c rest h ih =>
    rw [reSplitSentF, if_neg h]
    have hrf : rest.length ≤ fuel := by simp at hfuel; omega
    cases hr : reSplitSentF fuel rest with
    | nil => exact absurd hr (reSplitSentF_ne_nil fuel rest)
    | cons p ps =>
      have ih' := ih hrf
      rw [hr] at ih'
      rw [List.all_cons] at ih'
      obtain ⟨hp, hps⟩ := (Bool.and_eq_true _ _).mp ih'
      simp only [consHead, List.all_cons]
      refine (Bool.and_eq_true _ _).mpr ⟨?_, hps⟩
      have hbp : hasBoundary p = false := by
        revert hp; cases hasBoundary p <;> simp
      have hcb : (sentEnd c && boundaryFollows p) = false := by
        by_contra hne
        have htrue : (sentEnd c && boundaryFollows p) = true := by
          revert hne; cases (sentEnd c && boundaryFollows p) <;> simp
        obtain ⟨hs, hb⟩ := (Bool.and_eq_true _ _).mp htrue
        obtain ⟨t, ht⟩ := reSplitF_head_extends fuel rest p ps hr
        have : boundaryFollows rest = true := by
          rw [← ht]; exact boundaryFollows_append t hb
        rw [hs, this] at h
        simp at h
      rw [hasBoundary, hcb, hbp]
      rfl

theorem chain_reSplitF (fuel : Nat) (l : List Char) :
    chainOk (reSplitSentF fuel l) = true := by
  induction fuel, l using reSplitSentF.induct with
  | case1 => simp [reSplitSentF, chainOk]
  | case2 c rest => simp [reSplitSentF, chainOk]
  | case3 fuel c rest h ih =>
    rw [reSplitSentF, if_pos h]
    obtain ⟨hs, hb⟩ := (Bool.and_eq_true _ _).mp h
    obtain ⟨u, r, hdrop, hu⟩ := boundaryFollows_dropWhile hb
    rw [hdrop] at ih ⊢
    obtain ⟨t, ps, hsplit⟩ := reSplitSentF_head_cons fuel u r
    rw [hsplit] at ih ⊢
    simp [chainOk, hs, hu, ih]
  | case4 fuel c rest h ih =>
    rw [reSplitSentF, if_neg h]
    cases hr : reSplitSentF fuel rest with
    | nil => exact absurd hr (reSplitSentF_ne_nil fuel rest)
    | cons p ps =>
      rw [hr] at ih
      cases ps with
      | nil => simp [consHead, chainOk]
      | cons q ps' =>
        have hp : ∃ d t', p = d :: t' := by
          cases rest with
          | nil =>
            rw [reSplitSentF] at hr
            simp at hr
          | cons d rest' =>
            obtain ⟨t', ps'', hsplit⟩ := reSplitSentF_head_cons fuel d rest'
            rw [hsplit] at hr
            injection hr with h1 _
            exact ⟨d, t', h1.symm⟩
        obtain ⟨d, t', rfl⟩ := hp
        simp only [consHead]
        simp only [chainOk, List.getLast?_cons_cons] at ih ⊢
        exact ih

/-! ### Trimmedness of the chunker output -/

/-- The first character, if any, does not satisfy `p`. -/
def noLead (p : Char → Bool) (l : List Char) : Bool :=
  match l.head? with
  | some c => !p c
  | none => true

/-- The last character, if any, does not satisfy `p`. -/
def noTrail (p : Char → Bool) (l : List Char) : Bool :=
  match l.getLast? with
  | some c => !p c
  | none => true

theorem noLead_dropWhile (p : Char → Bool) (l : List Char) :
    noLead p (l.dropWhile p) = true := by
  induction l with
  | nil => simp [noLead]
  | cons c rest ih =>
    rw [List.dropWhile_cons]
    by_cases hc : p c = true
    · rw [if_pos hc]; exact ih
    · rw [if_neg hc]; simp [noLead, hc]

theorem getLast?_of_suffix_ne_nil {s w : List Char} (h : s <:+ w) (hne : s ≠ []) :
    s.getLast? = w.getLast? := by
  obtain ⟨t, rfl⟩ := h
  exact (List.getLast?_append_of_ne_nil t hne).symm

theorem pyStripL_noTrail (l : List Char) : noTrail pySpace (pyStripL l) = true := by
  unfold pyStripL noTrail
  rw [List.getLast?_reverse]
  have := noLead_dropWhile pySpace ((l.dropWhile pySpace).reverse)
  unfold noLead at this
  exact this

theorem pyStripL_noLead (l : List Char) : noLead pySpace (pyStripL l) = true := by
  unfold pyStripL noLead
  rw [List.head?_reverse]
  cases hd : (l.dropWhile pySpace).reverse.dropWhile pySpace with
  | nil => rfl
  | cons c r =>
    have hsfx : (c :: r) <:+ (l.dropWhile pySpace).reverse := by
      rw [← hd]; exact List.dropWhile_suffix pySpace
    have hlast : (c :: r).getLast? = ((l.dropWhile pySpace).reverse).getLast? :=
      getLast?_of_suffix_ne_nil hsfx (by simp)
    rw [hlast, List.getLast?_reverse]
    have := noLead_dropWhile pySpace l
    unfold noLead at this
    exact this

theorem pyStripL_eq_nil_iff (l : List Char) :
    pyStripL l = [] ↔ ∀ c ∈ l, pySpace c = true := by
  unfold pyStripL
  rw [List.reverse_eq_nil_iff, List.dropWhile_eq_nil_iff]
  constructor
  · intro h c hc
    have hsplit : l.takeWhile pySpace ++ l.dropWhile pySpace = l :=
      List.takeWhile_append_dropWhile pySpace l
    rw [← hsplit] at hc
    rcases List.mem_append.mp hc with htk | hdr
    · exact List.mem_takeWhile_imp htk
    · exact h c (List.mem_reverse.mpr hdr)
  · intro h c hc
    have hsub : List.Sublist (l.dropWhile pySpace) l := List.dropWhile_sublist _
    exact h c (hsub.subset (List.mem_reverse.mp hc))

theorem splitIntoSentencesL_trimmed (l : List Char) :
    (splitIntoSentencesL l).all
      (fun u => !u.isEmpty && noLead pySpace u && noTrail pySpace u) = true := by
  rw [List.all_eq_true]
  intro u hu
  unfold splitIntoSentencesL at hu
  obtain ⟨hmem, hne⟩ := List.mem_filter.mp hu
  obtain ⟨z, _, rfl⟩ := List.mem_map.mp hmem
  simp only [Bool.and_eq_true]
  exact ⟨⟨by simpa using hne, pyStripL_noLead z⟩, pyStripL_noTrail z⟩

/-- C2: for every input text, `_split_into_sentences` splits exactly at the
positions where a sentence-terminal character (`.`, `!`, `?`) is immediately
followed by whitespace and then an ASCII uppercase letter — the pieces and
the consumed whitespace separators reassemble to the input (so splitting
happens only at such positions, order preserved), every separator is a
non-empty whitespace run, each piece before a separator ends with the
punctuation and each piece after one starts with the uppercase letter, and no
boundary pattern survives inside any piece (so splitting happens at every
such position); the final output trims surrounding whitespace from every
unit, drops units that become empty, and keeps the remaining units in input
order (a sublist of the trimmed pieces). -/
theorem C2_chunker_boundary_split (text : String) :
    (reSplitSent text.data).length = (reSplitSeps text.data).length + 1
    ∧ glue (reSplitSent text.data) (reSplitSeps text.data) = text.data
    ∧ (reSplitSeps text.data).all (fun s => !s.isEmpty && s.all pySpace) = true
    ∧ chainOk (reSplitSent text.data) = true
    ∧ (reSplitSent text.data).all (fun p => !hasBoundary p) = true
    ∧ (splitIntoSentencesL text.data).all
        (fun u => !u.isEmpty && noLead pySpace u && noTrail pySpace u) = true
    ∧ (splitIntoSentencesL text.data).Sublist ((reSplitSent text.data).map pyStripL)
    ∧ splitIntoSentences text = (splitIntoSentencesL text.data).map String.mk :=
  ⟨reSplitSentF_length text.data.length text.data,
   glue_reSplitF text.data.length text.data,
   seps_whitespaceF text.data.length text.data,
   chain_reSplitF text.data.length text.data,
   reSplitF_no_boundary text.data.length text.data (Nat.le_refl _),
   splitIntoSentencesL_trimmed text.data, List.filter_sublist _, rfl⟩

/-! ### Decimal digit strings -/

theorem digitChar_isDigit {d : Nat} (hd : d < 10) :
    (Nat.digitChar d).isDigit = true := by
  interval_cases d <;> decide

theorem natDigitsF_all_digit (fuel : Nat) :
    ∀ n, ∀ c ∈ natDigitsF fuel n, c.isDigit = true := by
  induction fuel with
  | zero =>
    intro n c hc
    simp only [natDigitsF, List.mem_singleton] at hc
    subst hc
    exact digitChar_isDigit (Nat.mod_lt _ (by omega))
  | succ fuel ih =>
    intro n c hc
    rw [natDigitsF] at hc
    by_cases h : n < 10
    · rw [if_pos h] at hc
      simp only [List.mem_singleton] at hc
      subst hc
      exact digitChar_isDigit h
    · rw [if_neg h] at hc
      rcases List.mem_append.mp hc with h1 | h2
      · exact ih (n / 10) c h1
      · simp only [List.mem_singleton] at h2
        subst h2
        exact digitChar_isDigit (Nat.mod_lt _ (by omega))

theorem natDigits_all_digit (n : Nat) : ∀ c ∈ natDigits n, c.isDigit = true :=
  natDigitsF_all_digit n n

theorem natDigitsF_ne_nil (fuel n : Nat) : natDigitsF fuel n ≠ [] := by
  cases fuel with
  | zero => simp [natDigitsF]
  | succ fuel =>
    rw [natDigitsF]
    by_cases h : n < 10
    · simp [h]
    · simp [h]

/-- Splitting a character list at a separating dash whose left part consists
of decimal digits is unambiguous. -/
theorem dash_split_eq {d₁ d₂ r₁ r₂ : List Char}
    (hd₁ : ∀ c ∈ d₁, c.isDigit = true) (hd₂ : ∀ c ∈ d₂, c.isDigit = true)
    (h : d₁ ++ '-' :: r₁ = d₂ ++ '-' :: r₂) : d₁ = d₂ ∧ r₁ = r₂ := by
  induction d₁ generalizing d₂ with
  | nil =>
    cases d₂ with
    | nil => simpa using h
    | cons b bs =>
      simp only [List.nil_append, List.cons_append, List.cons.injEq] at h
      obtain ⟨hb, _⟩ := h
      have hdig := hd₂ b (by simp)
      rw [← hb] at hdig
      simp at hdig
  | cons a as ih =>
    cases d₂ with
    | nil =>
      simp only [List.nil_append, List.cons_append, List.cons.injEq] at h
      obtain ⟨ha, _⟩ := h
      have hdig := hd₁ a (by simp)
      rw [ha] at hdig
      simp at hdig
    | cons b bs =>
      simp only [List.cons_append, List.cons.injEq] at h
      obtain ⟨hab, hrest⟩ := h
      obtain ⟨h1, h2⟩ := ih (fun c hc => hd₁ c (by simp [hc]))
        (fun c hc => hd₂ c (by simp [hc])) hrest
      exact ⟨by rw [hab, h1], h2⟩

/-- Chunk ids `f"{filename}-{chunk_index}"` determine the filename: two equal
ids share their filename part (the digits of the index contain no dash, so
the final dash is unambiguous). -/
theorem chunkId_filename_eq {f g : String} {m n : Nat}
    (h : f ++ "-" ++ pyStr m = g ++ "-" ++ pyStr n) : f = g := by
  have hdata : f.data ++ '-' :: (natDigits m) = g.data ++ '-' :: (natDigits n) := by
    have := congrArg String.data h
    simpa [String.data_append, pyStr] using this
  have hrev := congrArg List.reverse hdata
  simp only [List.reverse_append, List.reverse_cons, List.append_assoc,
    List.singleton_append] at hrev
  have hsplit := dash_split_eq
    (fun c hc => natDigits_all_digit m c (List.mem_reverse.mp hc))
    (fun c hc => natDigits_all_digit n c (List.mem_reverse.mp hc)) hrev
  have : f.data = g.data := by
    have := congrArg List.reverse hsplit.2
    simpa using this
  cases f
  cases g
  exact congrArg String.mk this

/-! ### Configuration (config.py) -/

/-- `Settings` (config.py): the configurable values, with their defaults
(environment overrides absent). -/
structure Settings where
  app_name : String := "FastAPI RAG Application"
  app_version : String := "0.1.0"
  upload_dir : String := "./uploads"
  max_upload_size : Nat := 10 * 1024 * 1024
  retrieval_top_k : Int := 5
  concurrency : Nat := 10

/-- The module-level `settings = Settings()` instance of config.py. -/
def settings : Settings := {}

/-! ### PDF processing (pdf_processor.py) -/

/-- `PDFResult` (dtos.py): the processed document, filename plus ordered
sentence chunks. -/
structure PDFResult where
  filename : String
  sentences : List String
deriving DecidableEq

/-- The `ValueError` message of `process_pdf` (pdf_processor.py line 83). -/
def noTextMsg : String := "No text could be extracted from the PDF"

/-- `PDFProcessor.process_pdf` (pdf_processor.py lines 69-87), parametrised
by the page text that the external pypdf extraction produced for the file at
`pdf_path`: `extract_text_from_pdf` returns that text stripped
(pdf_processor.py line 48), `process_pdf` raises `ValueError` when the
result is falsy (the empty string), and otherwise chunks it with
`_split_into_sentences`. -/
def process_pdf (rawExtract : String) (filename : String) :
    Except String PDFResult :=
  let text := pyStrip rawExtract
  if text = "" then Except.error noTextMsg
  else Except.ok ⟨filename, splitIntoSentences text⟩

theorem pyStrip_eq_empty_iff (s : String) :
    pyStrip s = "" ↔ pyStripL s.data = [] := by
  constructor
  · intro h
    have := congrArg String.data h
    simpa [pyStrip] using this
  · intro h
    rw [pyStrip, h]

theorem splitIntoSentences_ne_nil_of_stripped {t : String}
    (hne : t.data ≠ []) (hlead : noLead pySpace t.data = true) :
    splitIntoSentences t ≠ [] := by
  obtain ⟨c, r, hcr⟩ := List.exists_cons_of_ne_nil hne
  have hlen : t.data.length = r.length + 1 := by rw [hcr]; simp
  obtain ⟨u, ps, heq⟩ := reSplitSentF_head_cons (r.length + 1) c r
  have hsent : reSplitSent t.data = (c :: u) :: ps := by
    rw [reSplitSent, hlen, hcr]
    exact heq
  have hcns : pySpace c = false := by
    rw [hcr] at hlead
    unfold noLead at hlead
    simpa using hlead
  have hstrip_ne : pyStripL (c :: u) ≠ [] := by
    intro hnil
    have := (pyStripL_eq_nil_iff (c :: u)).mp hnil c (by simp)
    rw [hcns] at this
    exact Bool.false_ne_true this
  unfold splitIntoSentences splitIntoSentencesL
  rw [hsent]
  simp only [List.map_cons, List.filter_cons]
  have : (!(pyStripL (c :: u)).isEmpty) = true := by
    simpa [List.isEmpty_iff] using hstrip_ne
  simp [this]

/-- C6: `process_pdf` signals the empty-extraction error exactly when the
extracted, trimmed document text is empty, and whenever it returns normally
the returned `PDFResult` carries the original filename and a non-empty
sentence sequence, so zero chunks are never passed on for indexing. -/
theorem C6_process_pdf_empty_iff (raw fname : String) :
    (process_pdf raw fname = Except.error noTextMsg ↔ pyStrip raw = "")
    ∧ ∀ res, process_pdf raw fname = Except.ok res →
        res.filename = fname ∧ res.sentences ≠ [] := by
  constructor
  · constructor
    · intro h
      by_contra hne
      rw [process_pdf] at h
      simp only [hne, if_false] at h
      exact Except.noConfusion h
    · intro h
      rw [process_pdf]
      simp [h]
  · intro res hres
    by_cases h : pyStrip raw = ""
    · rw [process_pdf] at hres
      simp [h] at hres
    · rw [process_pdf] at hres
      simp only [h, if_false, Except.ok.injEq] at hres
      subst hres
      refine ⟨rfl, ?_⟩
      refine splitIntoSentences_ne_nil_of_stripped ?_ ?_
      · intro hnil
        exact h ((pyStrip_eq_empty_iff raw).mpr (by simpa [pyStrip] using hnil))
      · have := pyStripL_noLead raw.data
        simpa [pyStrip] using this

/-- Witness for C6: an all-whitespace extraction yields the error; the
two-sentence sample text yields a normal return with non-empty chunks. -/
theorem C6_process_pdf_empty_iff_witness :
    process_pdf " \n " "a.pdf" = Except.error noTextMsg
    ∧ (⟨"doc.pdf", ["Hello world.", "Second sentence here."]⟩ : PDFResult).sentences ≠ [] := by
  constructor
  · exact (C6_process_pdf_empty_iff " \n " "a.pdf").1.mpr (by decide)
  · exact ((C6_process_pdf_empty_iff "Hello world. Second sentence here." "doc.pdf").2
      ⟨"doc.pdf", ["Hello world.", "Second sentence here."]⟩ (by rfl)).2

/-! ### Vector store (vector_store.py) -/

/-- One stored entry of the ChromaDB collection: the id, the metadata fields
`filename` and `chunk_index`, and the document text, exactly as forwarded by
`VectorStore.add_documents` (vector_store.py lines 27-42). -/
structure ChunkRecord where
  id : String
  filename : String
  chunk_index : Nat
  text : String
deriving DecidableEq

/-- The external ChromaDB collection, embedded as the list of records it
holds, in insertion order. -/
abbrev Collection := List ChunkRecord

/-- A metadata dictionary `{"filename": .., "chunk_index": ..}` as stored
with every chunk and returned by `collection.query`; both keys are always
present on stored chunks (written by `add_documents`), so the `.get`
defaults in `RAGService._format_context` never fire. -/
structure ChunkMeta where
  filename : String
  chunk_index : Nat
deriving DecidableEq

/-- The dictionary returned by `collection.query` (chromadb shape): parallel
outer lists, one entry per query text — the service always passes exactly one
query — and inner lists ranked best match first. -/
structure SearchResult where
  documents : List (List String)
  metadatas : List (List ChunkMeta)
deriving DecidableEq

namespace VectorStore

/-- `VectorStore.add_documents` (vector_store.py lines 27-42): the loop over
`enumerate(pdf_result.sentences)` builds `ids` (`f"{filename}-{i}"`) and
`metadatas` (`{"filename": .., "chunk_index": i}`), then
`collection.add(ids, metadatas, documents)` stores one record per
position. -/
def add_documents (store : Collection) (pdf_result : PDFResult) : Collection :=
  let ids := pdf_result.sentences.enum.map
    fun p => pdf_result.filename ++ "-" ++ pyStr p.1
  let metadatas := pdf_result.sentences.enum.map
    fun p => (pdf_result.filename, p.1)
  store ++ (ids.zip (metadatas.zip pdf_result.sentences)).map
    fun q => ⟨q.1, q.2.1.1, q.2.1.2, q.2.2⟩

/-- `VectorStore.search` (vector_store.py lines 44-60): substitute the
configured default when `top_k` is `None`, then delegate to the external
`collection.query(n_results=top_k, query_texts=[query])`, modelled as a
function from the effective `n_results` to the returned dictionary. -/
def search (cfg : Settings) (collectionQuery : Int → SearchResult)
    (top_k : Option Int) : SearchResult :=
  match top_k with
  | none => collectionQuery cfg.retrieval_top_k
  | some k => collectionQuery k

/-- `VectorStore.delete_by_filename` (vector_store.py lines 62-75):
`collection.get(where={"filename": filename})` collects the ids of the
matching records; if there are any, `collection.delete(ids=..)` removes the
records bearing those ids. -/
def delete_by_filename (store : Collection) (filename : String) : Collection :=
  let ids := (store.filter (fun c => c.filename = filename)).map (fun c => c.id)
  if ids.isEmpty then store
  else store.filter (fun c => !ids.contains c.id)

/-- Lexicographic code-point order on character lists: how Python compares
strings. -/
def lexLe : List Char → List Char → Bool
  | [], _ => true
  | _ :: _, [] => false
  | a :: as, b :: bs =>
    if a.toNat < b.toNat then true
    else if a.toNat = b.toNat then lexLe as bs
    else false

/-- Python string comparison `a <= b` (code-point lexicographic). -/
def strLe (a b : String) : Bool := lexLe a.data b.data

/-- Python `set(...)` of a list of strings, embedded as the list of first
occurrences (the set's iteration order is immaterial: callers sort it). -/
def setFold (l : List String) : List String :=
  l.foldl (fun acc f => if f ∈ acc then acc else acc ++ [f]) []

/-- `VectorStore.get_all_filenames` (vector_store.py lines 77-91): collect
the `filename` metadata values of all stored chunks into a set and return
them sorted; Python's `sorted` is embedded as an insertion sort by the
string comparison. -/
def get_all_filenames (store : Collection) : List String :=
  let filenames := setFold (store.map (fun c => c.filename))
  List.insertionSort (fun a b => strLe a b = true) filenames

/-- `VectorStore.count_documents` (vector_store.py lines 93-100):
`collection.count()`, the number of stored chunks. -/
def count_documents (store : Collection) : Nat :=
  store.length

/-- `VectorStore.reset` (vector_store.py lines 102-107): delete the
collection and recreate it empty under the same name. -/
def reset (_store : Collection) : Collection :=
  []

end VectorStore

theorem zip_map_three {α A B C : Type}
    (f : α → A) (g : α → B) (h : α → C) (l : List α) :
    (l.map f).zip ((l.map g).zip (l.map h))
      = l.map fun x => (f x, (g x, h x)) := by
  rw [List.zip_map', List.zip_map']

theorem getElem?_enum' {α : Type} (l : List α) (i : Nat) :
    l.enum[i]? = l[i]?.map fun a => (i, a) := by
  have he : l.enum = List.enumFrom 0 l := rfl
  have := List.getElem?_enumFrom 0 l i
  rw [he]
  simp [this]

/-- C3: for every `ProcessedDocument`, `add_documents` appends exactly one
stored chunk per entry of the sentence sequence, in order, with
`chunk_index` equal to the entry position (starting at 0), metadata
`{filename, chunk_index}`, and id `"{source_filename}-{chunk_index}"`. -/
theorem C3_add_documents_one_chunk_per_entry (store : Collection) (res : PDFResult) :
    ∃ chunks : Collection,
      VectorStore.add_documents store res = store ++ chunks
      ∧ chunks.length = res.sentences.length
      ∧ ∀ i : Nat, chunks[i]? = (res.sentences[i]?).map
          fun s => ⟨res.filename ++ "-" ++ pyStr i, res.filename, i, s⟩ := by
  have h3 := zip_map_three (fun p : Nat × String => res.filename ++ "-" ++ pyStr p.1)
    (fun p : Nat × String => (res.filename, p.1)) Prod.snd res.sentences.enum
  rw [List.enum_map_snd] at h3
  refine ⟨_, rfl, ?_, ?_⟩
  · show (List.map _ _).length = _
    rw [h3, List.map_map]
    simp
  · intro i
    show (List.map _ _)[i]? = _
    rw [h3, List.map_map, List.getElem?_map, getElem?_enum']
    cases res.sentences[i]? <;> simp

/-! ### Order lemmas for Python string sorting -/

theorem lexLe_total : ∀ a b, VectorStore.lexLe a b = true ∨ VectorStore.lexLe b a = true := by
  intro a
  induction a with
  | nil => intro b; left; cases b <;> rfl
  | cons x xs ih =>
    intro b
    cases b with
    | nil => right; rfl
    | cons y ys =>
      by_cases h1 : x.toNat < y.toNat
      · left; simp [VectorStore.lexLe, h1]
      · by_cases h2 : x.toNat = y.toNat
        · have h1' : ¬ y.toNat < x.toNat := by omega
          rcases ih ys with h | h
          · left; simp [VectorStore.lexLe, h1, h2, h]
          · right; simp [VectorStore.lexLe, h1', h2.symm, h]
        · right
          have h3 : y.toNat < x.toNat := by omega
          simp [VectorStore.lexLe, h3]

theorem lexLe_trans : ∀ a b c, VectorStore.lexLe a b = true →
    VectorStore.lexLe b c = true → VectorStore.lexLe a c = true := by
  intro a
  induction a with
  | nil => intro b c _ _; cases c <;> rfl
  | cons x xs ih =>
    intro b c hab hbc
    cases b with
    | nil => exact absurd hab Bool.false_ne_true
    | cons y ys =>
      cases c with
      | nil => exact absurd hbc Bool.false_ne_true
      | cons z zs =>
        by_cases h1 : x.toNat < y.toNat
        · by_cases h2 : y.toNat < z.toNat
          · have h : x.toNat < z.toNat := by omega
            simp [VectorStore.lexLe, h]
          · by_cases h3 : y.toNat = z.toNat
            · have h : x.toNat < z.toNat := by omega
              simp [VectorStore.lexLe, h]
            · rw [VectorStore.lexLe, if_neg h2, if_neg h3] at hbc
              exact absurd hbc Bool.false_ne_true
        · by_cases h2 : x.toNat = y.toNat
          · rw [VectorStore.lexLe, if_neg h1, if_pos h2] at hab
            by_cases h3 : y.toNat < z.toNat
            · have h : x.toNat < z.toNat := by omega
              simp [VectorStore.lexLe, h]
            · by_cases h4 : y.toNat = z.toNat
              · rw [VectorStore.lexLe, if_neg h3, if_pos h4] at hbc
                have hxlt : ¬ x.toNat < z.toNat := by omega
                have hxz : x.toNat = z.toNat := by omega
                rw [VectorStore.lexLe, if_neg hxlt, if_pos hxz]
                exact ih ys zs hab hbc
              · rw [VectorStore.lexLe, if_neg h3, if_neg h4] at hbc
                exact absurd hbc Bool.false_ne_true
          · rw [VectorStore.lexLe, if_neg h1, if_neg h2] at hab
            exact absurd hab Bool.false_ne_true

instance : IsTotal String (fun a b => VectorStore.strLe a b = true) :=
  ⟨fun a b => lexLe_total a.data b.data⟩

instance : IsTrans String (fun a b => VectorStore.strLe a b = true) :=
  ⟨fun a b c => lexLe_trans a.data b.data c.data⟩

theorem setFold_aux_nodup (l : List String) :
    ∀ acc : List String, acc.Nodup →
      (l.foldl (fun acc f => if f ∈ acc then acc else acc ++ [f]) acc).Nodup := by
  induction l with
  | nil => intro acc h; simpa using h
  | cons x xs ih =>
    intro acc h
    simp only [List.foldl_cons]
    by_cases hx : x ∈ acc
    · rw [if_pos hx]; exact ih acc h
    · rw [if_neg hx]
      refine ih _ ?_
      simp [List.nodup_append, h, hx]

theorem setFold_aux_mem (l : List String) :
    ∀ (acc : List String) (x : String),
      x ∈ l.foldl (fun acc f => if f ∈ acc then acc else acc ++ [f]) acc
        ↔ x ∈ acc ∨ x ∈ l := by
  induction l with
  | nil =>
    intro acc x
    simp
  | cons y ys ih =>
    intro acc x
    simp only [List.foldl_cons]
    by_cases hy : y ∈ acc
    · rw [if_pos hy, ih]
      constructor
      · rintro (h | h)
        · exact Or.inl h
        · exact Or.inr (List.mem_cons_of_mem y h)
      · rintro (h | h)
        · exact Or.inl h
        · rcases List.mem_cons.mp h with h' | h'
          · exact Or.inl (h' ▸ hy)
          · exact Or.inr h'
    · rw [if_neg hy, ih]
      constructor
      · rintro (h | h)
        · rcases List.mem_append.mp h with h' | h'
          · exact Or.inl h'
          · simp only [List.mem_singleton] at h'
            exact Or.inr (h' ▸ List.mem_cons_self y ys)
        · exact Or.inr (List.mem_cons_of_mem y h)
      · rintro (h | h)
        · exact Or.inl (List.mem_append.mpr (Or.inl h))
        · rcases List.mem_cons.mp h with h' | h'
          · exact Or.inl (List.mem_append.mpr (Or.inr (by simp [h'])))
          · exact Or.inr h'

theorem setFold_nodup (l : List String) : (VectorStore.setFold l).Nodup :=
  setFold_aux_nodup l [] List.nodup_nil

theorem setFold_mem (l : List String) (x : String) :
    x ∈ VectorStore.setFold l ↔ x ∈ l := by
  have := setFold_aux_mem l [] x
  rw [VectorStore.setFold]
  simpa using this

/-! ### The /stats route (routes.py) -/

/-- `StatsResponse` (schemas.py lines 27-30). -/
structure StatsResponse where
  total_documents : Nat
  total_chunks : Nat
  unique_files : List String
deriving DecidableEq

/-- `get_stats` (routes.py lines 67-85): `total_chunks = count_documents()`,
`unique_files = get_all_filenames()`, and the response carries
`total_documents = len(unique_files)`. -/
def get_stats (store : Collection) : StatsResponse :=
  let total_chunks := VectorStore.count_documents store
  let unique_files := VectorStore.get_all_filenames store
  ⟨unique_files.length, total_chunks, unique_files⟩

/-- C7: `/stats` returns `total_documents` equal to the number of distinct
stored filenames, `total_chunks` equal to the raw stored chunk count, and
`unique_files` listing exactly the distinct stored filename values, without
duplicates, in lexicographic order. -/
theorem C7_stats_distinct_counts (store : Collection) :
    (get_stats store).total_chunks = store.length
    ∧ (get_stats store).unique_files.Nodup
    ∧ (get_stats store).unique_files.Sorted (fun a b => VectorStore.strLe a b = true)
    ∧ (∀ s, s ∈ (get_stats store).unique_files ↔ s ∈ store.map (fun c => c.filename))
    ∧ (get_stats store).total_documents
        = (store.map (fun c => c.filename)).dedup.length := by
  have hperm : List.Perm
      (List.insertionSort (fun a b => VectorStore.strLe a b = true)
        (VectorStore.setFold (store.map (fun c => c.filename))))
      (VectorStore.setFold (store.map (fun c => c.filename))) :=
    List.perm_insertionSort _ _
  have hfiles : (get_stats store).unique_files
      = List.insertionSort (fun a b => VectorStore.strLe a b = true)
          (VectorStore.setFold (store.map (fun c => c.filename))) := rfl
  refine ⟨rfl, ?_, ?_, ?_, ?_⟩
  · rw [hfiles]
    exact hperm.nodup_iff.mpr (setFold_nodup _)
  · rw [hfiles]
    exact List.sorted_insertionSort _ _
  · intro s
    rw [hfiles, hperm.mem_iff, setFold_mem]
  · show (List.insertionSort _ _).length = _
    rw [hperm.length_eq]
    have hmem : ∀ a, a ∈ VectorStore.setFold (store.map (fun c => c.filename))
        ↔ a ∈ (store.map (fun c => c.filename)).dedup :=
      fun a => (setFold_mem _ a).trans List.mem_dedup.symm
    exact ((List.perm_ext_iff_of_nodup (setFold_nodup _)
      (List.nodup_dedup _)).mpr hmem).length_eq

/-! ### The add/delete round trip (vector_store.py) -/

/-- Deleting by a filename that only the freshly appended records carry
removes exactly those records: the matching ids are collected from the
metadata and the deletion by id touches nothing else, because every stored
id is `"{filename}-{chunk_index}"` of its own record and the digits of the
index contain no dash. -/
theorem delete_by_filename_append_fresh (store new : Collection) (fname : String)
    (hwf : ∀ c ∈ store, c.id = c.filename ++ "-" ++ pyStr c.chunk_index)
    (hno : ∀ c ∈ store, c.filename ≠ fname)
    (hnew_fn : ∀ c ∈ new, c.filename = fname)
    (hnew_id : ∀ c ∈ new, ∃ k, c.id = fname ++ "-" ++ pyStr k)
    (hne : new ≠ []) :
    VectorStore.delete_by_filename (store ++ new) fname = store := by
  have hfilter : (store ++ new).filter (fun c => decide (c.filename = fname)) = new := by
    rw [List.filter_append]
    have h1 : store.filter (fun c => decide (c.filename = fname)) = [] := by
      rw [List.filter_eq_nil_iff]
      intro c hc
      simp [hno c hc]
    have h2 : new.filter (fun c => decide (c.filename = fname)) = new := by
      rw [List.filter_eq_self]
      intro c hc
      simp [hnew_fn c hc]
    rw [h1, h2, List.nil_append]
  have hids_ne : (new.map (fun c => c.id)).isEmpty = false := by
    cases new with
    | nil => exact absurd rfl hne
    | cons c cs => rfl
  simp only [VectorStore.delete_by_filename, hfilter, hids_ne, Bool.false_eq_true,
    if_false]
  rw [List.filter_append]
  have h3 : new.filter (fun c => !(new.map (fun c => c.id)).contains c.id) = [] := by
    rw [List.filter_eq_nil_iff]
    intro c hc
    simp only [Bool.not_eq_true', ← Bool.not_eq_true]
    intro hfalse
    exact hfalse (by simpa using List.mem_map.mpr ⟨c, hc, rfl⟩)
  have h4 : store.filter (fun c => !(new.map (fun c => c.id)).contains c.id) = store := by
    rw [List.filter_eq_self]
    intro c hc
    by_cases hmem : c.id ∈ new.map (fun c => c.id)
    · obtain ⟨d, hd, hdc⟩ := List.mem_map.mp hmem
      obtain ⟨k, hk⟩ := hnew_id d hd
      have heq : c.filename ++ "-" ++ pyStr c.chunk_index = fname ++ "-" ++ pyStr k := by
        rw [← hwf c hc, ← hdc, hk]
      exact absurd (chunkId_filename_eq heq) (hno c hc)
    · have hcn : (new.map (fun c => c.id)).contains c.id = false := by
        simpa using hmem
      rw [hcn]
      rfl
  rw [h3, h4, List.append_nil]

/-- C8: for every well-formed index state holding no chunks with filename
`"a.pdf"`, adding a `ProcessedDocument` named `"a.pdf"` with 3 chunks raises
`count_documents()` by exactly 3, and a subsequent
`delete_by_filename("a.pdf")` returns the count to its prior value.
Well-formedness — every stored id reads `"{filename}-{chunk_index}"` of its
own record, as `add_documents` always writes it — is the collection
invariant. -/
theorem C8_add_delete_round_trip (store : Collection) (t0 t1 t2 : String)
    (hwf : ∀ c ∈ store, c.id = c.filename ++ "-" ++ pyStr c.chunk_index)
    (hno : ∀ c ∈ store, c.filename ≠ "a.pdf") :
    VectorStore.count_documents
        (VectorStore.add_documents store ⟨"a.pdf", [t0, t1, t2]⟩)
      = VectorStore.count_documents store + 3
    ∧ VectorStore.count_documents
        (VectorStore.delete_by_filename
          (VectorStore.add_documents store ⟨"a.pdf", [t0, t1, t2]⟩) "a.pdf")
      = VectorStore.count_documents store := by
  have hadd : VectorStore.add_documents store ⟨"a.pdf", [t0, t1, t2]⟩
      = store ++ [⟨"a.pdf-0", "a.pdf", 0, t0⟩, ⟨"a.pdf-1", "a.pdf", 1, t1⟩,
          ⟨"a.pdf-2", "a.pdf", 2, t2⟩] := rfl
  constructor
  · rw [hadd]
    simp [VectorStore.count_documents]
  · rw [hadd, delete_by_filename_append_fresh store _ "a.pdf" hwf hno ?_ ?_ ?_]
    · intro c hc
      simp only [List.mem_cons, List.mem_singleton] at hc
      rcases hc with rfl | rfl | rfl | h
      · rfl
      · rfl
      · rfl
      · exact absurd h (List.not_mem_nil c)
    · intro c hc
      simp only [List.mem_cons, List.mem_singleton] at hc
      rcases hc with rfl | rfl | rfl | h
      · exact ⟨0, rfl⟩
      · exact ⟨1, rfl⟩
      · exact ⟨2, rfl⟩
      · exact absurd h (List.not_mem_nil c)
    · simp

/-- Witness for C8: a one-chunk store for `"b.pdf"`; adding three chunks for
`"a.pdf"` yields count 4, deleting `"a.pdf"` returns the count to 1. -/
theorem C8_add_delete_round_trip_witness :
    VectorStore.count_documents (VectorStore.add_documents
      [⟨"b.pdf-0", "b.pdf", 0, "x"⟩] ⟨"a.pdf", ["s0", "s1", "s2"]⟩) = 4
    ∧ VectorStore.count_documents (VectorStore.delete_by_filename
        (VectorStore.add_documents [⟨"b.pdf-0", "b.pdf", 0, "x"⟩]
          ⟨"a.pdf", ["s0", "s1", "s2"]⟩) "a.pdf") = 1 := by
  have h := C8_add_delete_round_trip [⟨"b.pdf-0", "b.pdf", 0, "x"⟩] "s0" "s1" "s2"
    (by intro c hc; simp only [List.mem_singleton] at hc; subst hc; rfl)
    (by intro c hc; simp only [List.mem_singleton] at hc; subst hc; decide)
  exact ⟨h.1, h.2⟩

/-! ### Response schema (schemas.py) and RAG service (rag_service.py) -/

/-- A value in a serialised pydantic model of this app: a string, or the
list of source dictionaries. -/
inductive PyVal where
  | str (s : String)
  | listDicts (xs : List (List (String × String)))
deriving DecidableEq

/-- A self-reported source record (`dict[str, Any]`), embedded as a JSON
object with string fields. -/
abbrev Source := List (String × String)

/-- `RAGResponse` (schemas.py lines 33-37): the declared fields are exactly
`answer` and `sources`; the schema declares no `confidence` field. -/
structure RAGResponse where
  answer : String
  sources : List Source
deriving DecidableEq

/-- pydantic `BaseModel` construction under its default configuration
(`extra='ignore'`): keyword arguments matching no declared field are
silently discarded. Embeds `RAGResponse(answer=.., sources=.., **extra)`. -/
def RAGResponse.init (answer : String) (sources : List Source)
    (_extraIgnored : List (String × String)) : RAGResponse :=
  ⟨answer, sources⟩

/-- Serialisation of a `RAGResponse`: exactly the declared fields, in
declaration order. -/
def RAGResponse.dump (r : RAGResponse) : List (String × PyVal) :=
  [("answer", PyVal.str r.answer), ("sources", PyVal.listDicts r.sources)]

/-- One `context_parts` entry of `RAGService._format_context`
(rag_service.py lines 66-74): the f-string
`"[Document {i} - Source: {filename}, Chunk: {chunk_index}]\n{doc}\n"`
with the 1-based rank `i`; the `.get` defaults never fire for stored
metadata, which always carries both keys. -/
def formatPart (i : Nat) (doc : String) (meta : ChunkMeta) : String :=
  "[Document " ++ pyStr i ++ " - Source: " ++ meta.filename ++ ", Chunk: "
    ++ pyStr meta.chunk_index ++ "]\n" ++ doc ++ "\n"

/-- The `context_parts` list built by the loop
`for i, (doc, metadata) in enumerate(zip(documents, metadatas), 1)`
(rag_service.py lines 66-74). -/
def formatParts (documents : List String) (metadatas : List ChunkMeta) : List String :=
  (List.enumFrom 1 (documents.zip metadatas)).map fun p => formatPart p.1 p.2.1 p.2.2

/-- `RAGService._format_context` (rag_service.py lines 53-76):
`"\n".join(context_parts)`. -/
def format_context (documents : List String) (metadatas : List ChunkMeta) : String :=
  pyJoin "\n" (formatParts documents metadatas)

/-- The user prompt f-string of `RAGService.query` (rag_service.py lines
104-108), with its literal indentation. -/
def buildPrompt (context question : String) : String :=
  "Context from documents:" ++ context ++ "\n        \n        Question: "
    ++ question
    ++ "\n        \n        Please provide a detailed answer based on the context above."

/-- The canned short-circuit answer of `RAGService.query` (rag_service.py
lines 92-97). -/
def noDocsAnswer : String :=
  "I don't have any documents to answer your question. Please upload some PDF documents first."

/-- `RAGService.query` (rag_service.py lines 78-112), parametrised by the
external collection query (behind `VectorStore.search`) and by the Answer
Generator (`self.agent.run`, whose structured output is a schema-validated
`RAGResponse`). Returns the response paired with the number of generator
invocations. When `search_results["documents"]` is empty or its first entry
is empty, the canned response is returned — built with an extra
`confidence="low"` keyword that the `RAGResponse` schema discards — and the
generator is not invoked. -/
def RAGService.query (cfg : Settings) (collectionQuery : String → Int → SearchResult)
    (gen : String → RAGResponse) (question : String) (top_k : Option Int) :
    RAGResponse × Nat :=
  let search_results := VectorStore.search cfg (collectionQuery question) top_k
  match search_results.documents.head? with
  | none => (RAGResponse.init noDocsAnswer [] [("confidence", "low")], 0)
  | some docs0 =>
    if docs0 = [] then
      (RAGResponse.init noDocsAnswer [] [("confidence", "low")], 0)
    else
      let metadatas := search_results.metadatas.headD []
      let context := format_context docs0 metadatas
      let prompt := buildPrompt context question
      (gen prompt, 1)

theorem string_eq_of_data {a b : String} (h : a.data = b.data) : a = b := by
  cases a
  cases b
  exact congrArg String.mk h

theorem pyJoin_blocks (parts : List String) (hne : parts ≠ []) :
    pyJoin "\n" (parts.map (fun p => p ++ "\n")) = pyJoin "\n\n" parts ++ "\n" := by
  induction parts with
  | nil => exact absurd rfl hne
  | cons x xs ih =>
    cases xs with
    | nil => rfl
    | cons y ys =>
      have ihe := ih (by simp)
      simp only [List.map_cons] at ihe ⊢
      calc pyJoin "\n" ((x ++ "\n") :: (y ++ "\n") :: ys.map (fun p => p ++ "\n"))
          = (x ++ "\n") ++ "\n" ++ pyJoin "\n" ((y ++ "\n") :: ys.map (fun p => p ++ "\n")) := rfl
        _ = (x ++ "\n") ++ "\n" ++ (pyJoin "\n\n" (y :: ys) ++ "\n") := by rw [ihe]
        _ = (x ++ "\n\n" ++ pyJoin "\n\n" (y :: ys)) ++ "\n" := by
            rw [show ("\n\n" : String) = "\n" ++ "\n" from rfl]
            simp only [String.append_assoc]
        _ = pyJoin "\n\n" (x :: y :: ys) ++ "\n" := rfl

/-- C5: for every non-empty retrieval, `_format_context` renders one
labelled block per retrieved document — 1-based rank, source filename and
chunk index, then the document text — and joins the blocks with blank-line
separation (each block ends in a newline and the join inserts another),
preserving the retrieval order (rank `i + 1` corresponds to position `i` of
the `SearchResult` lists, best match first). -/
theorem C5_format_context_blocks (documents : List String) (metadatas : List ChunkMeta)
    (hne : documents ≠ []) (hlen : metadatas.length = documents.length) :
    ∃ parts : List String,
      formatParts documents metadatas = parts.map (fun p => p ++ "\n")
      ∧ format_context documents metadatas = pyJoin "\n\n" parts ++ "\n"
      ∧ parts.length = documents.length
      ∧ ∀ i d m, documents[i]? = some d → metadatas[i]? = some m →
          parts[i]? = some ("[Document " ++ pyStr (i + 1) ++ " - Source: " ++ m.filename
            ++ ", Chunk: " ++ pyStr m.chunk_index ++ "]\n" ++ d) := by
  refine ⟨(List.enumFrom 1 (documents.zip metadatas)).map
    (fun p => "[Document " ++ pyStr p.1 ++ " - Source: " ++ p.2.2.filename
      ++ ", Chunk: " ++ pyStr p.2.2.chunk_index ++ "]\n" ++ p.2.1), ?_, ?_, ?_, ?_⟩
  · rw [formatParts, List.map_map]
    rfl
  · rw [format_context]
    have hpartsne : (List.enumFrom 1 (documents.zip metadatas)).map
        (fun p => "[Document " ++ pyStr p.1 ++ " - Source: " ++ p.2.2.filename
          ++ ", Chunk: " ++ pyStr p.2.2.chunk_index ++ "]\n" ++ p.2.1) ≠ [] := by
      cases documents with
      | nil => exact absurd rfl hne
      | cons d ds =>
        cases metadatas with
        | nil => simp at hlen
        | cons m ms => simp
    have h1 : formatParts documents metadatas
        = ((List.enumFrom 1 (documents.zip metadatas)).map
            (fun p => "[Document " ++ pyStr p.1 ++ " - Source: " ++ p.2.2.filename
              ++ ", Chunk: " ++ pyStr p.2.2.chunk_index ++ "]\n" ++ p.2.1)).map
            (fun p => p ++ "\n") := by
      rw [formatParts, List.map_map]
      rfl
    rw [h1, pyJoin_blocks _ hpartsne]
  · rw [List.length_map, List.enumFrom_length, List.length_zip, hlen, Nat.min_self]
  · intro i d m hd hm
    rw [List.getElem?_map, List.getElem?_enumFrom]
    have hz : (documents.zip metadatas)[i]? = some (d, m) :=
      List.getElem?_zip_eq_some.mpr ⟨hd, hm⟩
    rw [hz]
    simp [Nat.add_comm]

/-- Witness for C5 at a concrete two-document retrieval. -/
theorem C5_format_context_blocks_witness :
    ∃ parts : List String,
      formatParts ["alpha.", "beta."] [⟨"a.pdf", 0⟩, ⟨"b.pdf", 3⟩]
          = parts.map (fun p => p ++ "\n")
      ∧ format_context ["alpha.", "beta."] [⟨"a.pdf", 0⟩, ⟨"b.pdf", 3⟩]
          = pyJoin "\n\n" parts ++ "\n"
      ∧ parts.length = 2
      ∧ parts[0]? = some "[Document 1 - Source: a.pdf, Chunk: 0]\nalpha."
      ∧ parts[1]? = some "[Document 2 - Source: b.pdf, Chunk: 3]\nbeta." := by
  obtain ⟨parts, h1, h2, h3, h4⟩ := C5_format_context_blocks
    ["alpha.", "beta."] [⟨"a.pdf", 0⟩, ⟨"b.pdf", 3⟩] (by simp) (by simp)
  refine ⟨parts, h1, h2, h3, ?_, ?_⟩
  · have := h4 0 "alpha." ⟨"a.pdf", 0⟩ (by rfl) (by rfl)
    simpa using this
  · have := h4 1 "beta." ⟨"b.pdf", 3⟩ (by rfl) (by rfl)
    simpa using this

/-- C1 (corrected), counterexample to the claim as stated: at a concrete
empty retrieval the short-circuit response carries no `confidence` entry at
all — the `confidence="low"` keyword passed at construction
(rag_service.py line 96) is silently discarded because the `RAGResponse`
schema (schemas.py lines 33-37) declares no such field — so the claim's
"confidence 'low'" conjunct is false (canned answer, empty sources and zero
generator calls do hold, see the amended theorem). -/
theorem C1_counterexample_no_confidence_field :
    ¬ (("confidence", PyVal.str "low") ∈
      (RAGService.query settings (fun _ _ => ⟨[], []⟩) (fun _ => ⟨"", []⟩)
        "q" none).1.dump) := by
  decide

/-- C1 (amended): whenever the retrieval yields an empty documents sequence
(`search_results["documents"]` empty, or its first entry empty), `query`
returns the fixed canned answer with empty sources and does not invoke the
Answer Generator (zero generator calls); the `confidence="low"` argument of
the canned construction is discarded by the response schema, so the returned
response carries no `confidence` entry. -/
theorem C1_short_circuit_no_generate (cfg : Settings)
    (collectionQuery : String → Int → SearchResult) (gen : String → RAGResponse)
    (question : String) (top_k : Option Int)
    (hempty : (VectorStore.search cfg (collectionQuery question) top_k).documents.headD []
      = []) :
    (RAGService.query cfg collectionQuery gen question top_k).1.answer = noDocsAnswer
    ∧ (RAGService.query cfg collectionQuery gen question top_k).1.sources = []
    ∧ (RAGService.query cfg collectionQuery gen question top_k).2 = 0
    ∧ (RAGService.query cfg collectionQuery gen question top_k).1.dump.lookup "confidence"
        = none := by
  cases hh : (VectorStore.search cfg (collectionQuery question) top_k).documents with
  | nil =>
    simp [RAGService.query, hh, RAGResponse.dump, RAGResponse.init, List.lookup]
  | cons d ds =>
    rw [hh] at hempty
    simp only [List.headD_cons] at hempty
    subst hempty
    simp [RAGService.query, hh, RAGResponse.dump, RAGResponse.init, List.lookup]

/-- Witness for C1 (amended) at a concrete empty retrieval. -/
theorem C1_short_circuit_no_generate_witness :
    (RAGService.query settings (fun _ _ => ⟨[], []⟩) (fun _ => ⟨"", []⟩)
        "What?" none).1.answer = noDocsAnswer
    ∧ (RAGService.query settings (fun _ _ => ⟨[], []⟩) (fun _ => ⟨"", []⟩)
        "What?" none).2 = 0 := by
  have h := C1_short_circuit_no_generate settings (fun _ _ => ⟨[], []⟩)
    (fun _ => ⟨"", []⟩) "What?" none (by rfl)
  exact ⟨h.1, h.2.2.1⟩

/-! ### The /query route and its validation (schemas.py, routes.py) -/

/-- `QueryRequest` (schemas.py lines 6-13): the validated request body. -/
structure QueryRequest where
  question : String
  top_k : Option Int
deriving DecidableEq

/-- FastAPI body validation against `QueryRequest` (schemas.py lines 6-13):
`top_k` is optional and, when present, must satisfy `ge=1` and `le=20`;
violations yield a 422 rejection before the handler runs. -/
def queryRequestValidate (question : String) (top_k : Option Int) :
    Except String QueryRequest :=
  match top_k with
  | none => Except.ok ⟨question, none⟩
  | some k =>
    if k < 1 then Except.error "Input should be greater than or equal to 1"
    else if k > 20 then Except.error "Input should be less than or equal to 20"
    else Except.ok ⟨question, some k⟩

/-- The `/query` route (routes.py lines 49-64) behind FastAPI's body
validation: an invalid body is rejected before `rag_service.query` is
invoked; a valid one is forwarded with its `question` and `top_k`. Returns
the outcome paired with the number of `rag_service.query` invocations. -/
def query_route (cfg : Settings) (collectionQuery : String → Int → SearchResult)
    (gen : String → RAGResponse) (question : String) (top_k : Option Int) :
    Except String RAGResponse × Nat :=
  match queryRequestValidate question top_k with
  | Except.error e => (Except.error e, 0)
  | Except.ok req =>
    (Except.ok (RAGService.query cfg collectionQuery gen req.question req.top_k).1, 1)

/-- C4: `/query` with `top_k = 0` or `top_k = 21` is rejected by validation
before the orchestrator's `query` is invoked (zero invocations); `top_k = 1`
and `top_k = 20` are accepted (the orchestrator runs once); and when `top_k`
is omitted, the `None` reaches `VectorStore.search`, which substitutes the
configured `retrieval_top_k` default — 5 in the shipped configuration — as
the effective `n_results`. -/
theorem C4_top_k_validation_bounds (cfg : Settings)
    (collectionQuery : String → Int → SearchResult) (gen : String → RAGResponse)
    (question : String) :
    ((query_route cfg collectionQuery gen question (some 0)).1.isOk = false
      ∧ (query_route cfg collectionQuery gen question (some 0)).2 = 0)
    ∧ ((query_route cfg collectionQuery gen question (some 21)).1.isOk = false
      ∧ (query_route cfg collectionQuery gen question (some 21)).2 = 0)
    ∧ ((query_route cfg collectionQuery gen question (some 1)).1.isOk = true
      ∧ (query_route cfg collectionQuery gen question (some 1)).2 = 1)
    ∧ ((query_route cfg collectionQuery gen question (some 20)).1.isOk = true
      ∧ (query_route cfg collectionQuery gen question (some 20)).2 = 1)
    ∧ ((query_route cfg collectionQuery gen question none).2 = 1
      ∧ ∀ f : Int → SearchResult, VectorStore.search cfg f none = f cfg.retrieval_top_k)
    ∧ settings.retrieval_top_k = 5 :=
  ⟨⟨rfl, rfl⟩, ⟨rfl, rfl⟩, ⟨rfl, rfl⟩, ⟨rfl, rfl⟩, ⟨rfl, fun _ => rfl⟩, rfl⟩

/-! ### Filesystem model and the upload/delete routes
(pdf_processor.py, routes.py) -/

/-- The filesystem, as a finite map from paths to file contents (the first
matching entry wins on lookup). -/
abbrev FileSystem := List (String × String)

/-- `os.path.exists`. -/
def pathExists (fs : FileSystem) (path : String) : Bool :=
  (fs.lookup path).isSome

/-- Writing a file: the new entry shadows any previous one at that path. -/
def fsWrite (fs : FileSystem) (path content : String) : FileSystem :=
  (path, content) :: fs

/-- `PDFProcessor.delete_file` (pdf_processor.py lines 114-122):
`if os.path.exists(file_path): os.remove(file_path)` — a total function,
and a no-op (never an error) when the path does not exist. -/
def delete_file (fs : FileSystem) (file_path : String) : FileSystem :=
  if pathExists fs file_path then fs.filter (fun e => !(e.1 == file_path)) else fs

/-- `pathlib` name splitting, `(Path(name).stem, Path(name).suffix)`: the
extension starts at the last dot when that dot is neither the first nor the
last character of the name; otherwise the extension is empty. -/
def pathSplitExt (name : String) : String × String :=
  match (name.data.reverse).findIdx? (fun c => c = '.') with
  | none => (name, "")
  | some k =>
    let i := name.data.length - 1 - k
    if 0 < i ∧ i < name.data.length - 1 then
      (String.mk (name.data.take i), String.mk (name.data.drop i))
    else (name, "")

theorem pathSplitExt_append (name : String) :
    (pathSplitExt name).1 ++ (pathSplitExt name).2 = name := by
  simp only [pathSplitExt]
  cases hf : (name.data.reverse).findIdx? (fun c => c = '.') with
  | none => simp
  | some k =>
    by_cases hcond : 0 < name.data.length - 1 - k
        ∧ name.data.length - 1 - k < name.data.length - 1
    · simp only [hcond, if_true]
      apply string_eq_of_data
      simp [String.data_append]
    · simp only [hcond, if_false]
      simp

/-- `PDFProcessor.save_uploaded_file` (pdf_processor.py lines 89-112),
parametrised by the collision suffix `uuid.uuid4().hex[:8]` drawn at the
renaming step: the target path is `Path(settings.upload_dir) / filename`;
if it exists, the file is renamed to `f"{stem}_{timestamp}{suffix}"` under
the same directory; the content is written and the final path returned.
(Path joining is embedded as `dir ++ "/" ++ name`; pathlib's normalisation
of a leading `"./"` is immaterial to every claim, and the stem/suffix of the
full path equal those of the bare `filename`, which carries no slash.) -/
def save_uploaded_file (cfg : Settings) (fs : FileSystem) (file_content : String)
    (filename : String) (hex8 : String) : FileSystem × String :=
  let file_path := cfg.upload_dir ++ "/" ++ filename
  if pathExists fs file_path then
    let stem := (pathSplitExt filename).1
    let sfx := (pathSplitExt filename).2
    let filename2 := stem ++ "_" ++ hex8 ++ sfx
    let file_path2 := cfg.upload_dir ++ "/" ++ filename2
    (fsWrite fs file_path2 file_content, file_path2)
  else
    (fsWrite fs file_path file_content, file_path)

/-- Python `str.endswith`. -/
def pyEndsWith (s suff : String) : Bool :=
  suff.data.isSuffixOf s.data

/-- `UploadResponse` (schemas.py lines 16-19). -/
structure UploadResponse where
  message : String
  filename : String
  total_documents : Nat
deriving DecidableEq

/-- `upload_pdf` (routes.py lines 13-46), parametrised by the page text the
external pypdf extraction produces for the saved file: reject a non-`.pdf`
name (400) and an oversized body (400, its detail message abbreviated
here); then save the content — renaming on collision — process the PDF with
the ORIGINAL `file.filename` (routes.py line 34), index the chunks, and
answer with the original filename and the new chunk count. -/
def upload_pdf (cfg : Settings) (fs : FileSystem) (store : Collection)
    (filename file_content extractedText hex8 : String) :
    Except String (FileSystem × Collection × UploadResponse) :=
  if pyEndsWith filename ".pdf" = false then
    Except.error "Only PDF files are supported"
  else if cfg.max_upload_size < file_content.length then
    Except.error "File size exceeds maximum allowed size"
  else
    let saved := save_uploaded_file cfg fs file_content filename hex8
    match process_pdf extractedText filename with
    | Except.error e => Except.error ("Error processing PDF: " ++ e)
    | Except.ok pdf_result =>
      let store2 := VectorStore.add_documents store pdf_result
      Except.ok (saved.1, store2,
        ⟨"PDF uploaded and processed successfully", filename,
          VectorStore.count_documents store2⟩)

/-- `delete_document` (routes.py lines 88-106): delete the index entries for
`filename`, then call `pdf_processor.delete_file(filename)` — with the BARE
filename, not the path under the upload directory — and return the success
message. -/
def delete_document (fs : FileSystem) (store : Collection) (filename : String) :
    Collection × FileSystem × String :=
  let store2 := VectorStore.delete_by_filename store filename
  let fs2 := delete_file fs filename
  (store2, fs2, "Document '" ++ filename ++ "' deleted successfully")

/-- C9 (implicit): the delete route invokes filesystem deletion with the
bare filename rather than the upload-directory path; `delete_file` is a
no-op — never an error — when its argument path does not exist; hence for
any filename whose bare name is not an existing path, the whole filesystem,
in particular the file stored under the upload directory, is unchanged,
while the route still returns the success message. The bare name always
differs from the upload-directory path. -/
theorem C9_delete_route_bare_filename (cfg : Settings) (fs : FileSystem)
    (store : Collection) (filename : String)
    (hbare : pathExists fs filename = false) :
    delete_file fs filename = fs
    ∧ (delete_document fs store filename).2.1 = fs
    ∧ (delete_document fs store filename).2.1.lookup (cfg.upload_dir ++ "/" ++ filename)
        = fs.lookup (cfg.upload_dir ++ "/" ++ filename)
    ∧ (delete_document fs store filename).2.2
        = "Document '" ++ filename ++ "' deleted successfully"
    ∧ filename ≠ cfg.upload_dir ++ "/" ++ filename := by
  have h1 : delete_file fs filename = fs := by
    rw [delete_file, hbare]
    simp
  refine ⟨h1, ?_, ?_, rfl, ?_⟩
  · simp [delete_document, h1]
  · simp [delete_document, h1]
  · intro heq
    have hlen := congrArg (fun s : String => s.data.length) heq
    simp [String.data_append] at hlen
    omega

/-- Witness for C9: deleting `"a.pdf"` leaves the file stored at
`"./uploads/a.pdf"` untouched while reporting success. -/
theorem C9_delete_route_bare_filename_witness :
    (delete_document [("./uploads/a.pdf", "content")] [] "a.pdf").2.1
        = [("./uploads/a.pdf", "content")]
    ∧ (delete_document [("./uploads/a.pdf", "content")] [] "a.pdf").2.2
        = "Document 'a.pdf' deleted successfully" := by
  have h := C9_delete_route_bare_filename settings [("./uploads/a.pdf", "content")]
    [] "a.pdf" (by decide)
  exact ⟨h.2.1, h.2.2.2.1⟩

/-- The shape of the chunk list appended by `add_documents`: one chunk per
sentence, each carrying the document's filename in its metadata and an id
built from that filename. -/
theorem add_documents_chunks_spec (store : Collection) (res : PDFResult) :
    ∃ chunks : Collection,
      VectorStore.add_documents store res = store ++ chunks
      ∧ chunks.length = res.sentences.length
      ∧ ∀ c ∈ chunks, c.filename = res.filename
        ∧ ∃ k, c.id = res.filename ++ "-" ++ pyStr k := by
  have h3 := zip_map_three (fun p : Nat × String => res.filename ++ "-" ++ pyStr p.1)
    (fun p : Nat × String => (res.filename, p.1)) Prod.snd res.sentences.enum
  rw [List.enum_map_snd] at h3
  refine ⟨_, rfl, ?_, ?_⟩
  · show (List.map _ _).length = _
    rw [h3, List.map_map]
    simp
  · intro c hc
    rw [show ((res.sentences.enum.map
        fun p => res.filename ++ "-" ++ pyStr p.1).zip
          ((res.sentences.enum.map fun p => (res.filename, p.1)).zip
            res.sentences)).map
          (fun q => (⟨q.1, q.2.1.1, q.2.1.2, q.2.2⟩ : ChunkRecord))
        = res.sentences.enum.map (fun p =>
            (⟨res.filename ++ "-" ++ pyStr p.1, res.filename, p.1, p.2⟩ : ChunkRecord))
      from by rw [h3, List.map_map]; rfl] at hc
    obtain ⟨p, _, rfl⟩ := List.mem_map.mp hc
    exact ⟨rfl, p.1, rfl⟩

/-- C10 (implicit): on an upload whose filename collides with an existing
file under the upload directory, the content is saved under the renamed
path — stem, underscore, the 8-character random suffix, then the
extension — but processing and indexing are invoked with the original
filename, so every appended chunk records the original upload name in its
metadata filename and chunk id, never the renamed on-disk name. -/
theorem C10_collision_rename_keeps_original_name (cfg : Settings) (fs : FileSystem)
    (store : Collection) (filename file_content extractedText hex8 : String)
    (hcol : pathExists fs (cfg.upload_dir ++ "/" ++ filename) = true)
    (hpdf : pyEndsWith filename ".pdf" = true)
    (hsize : ¬ cfg.max_upload_size < file_content.length)
    (htext : pyStrip extractedText ≠ "")
    (hhex : hex8.length = 8) :
    ∃ fs2 store2 resp,
      upload_pdf cfg fs store filename file_content extractedText hex8
        = Except.ok (fs2, store2, resp)
      ∧ fs2 = fsWrite fs (cfg.upload_dir ++ "/"
          ++ ((pathSplitExt filename).1 ++ "_" ++ hex8 ++ (pathSplitExt filename).2))
          file_content
      ∧ fs2.lookup (cfg.upload_dir ++ "/"
          ++ ((pathSplitExt filename).1 ++ "_" ++ hex8 ++ (pathSplitExt filename).2))
          = some file_content
      ∧ ((pathSplitExt filename).1 ++ "_" ++ hex8 ++ (pathSplitExt filename).2).length
          = filename.length + 9
      ∧ resp.filename = filename
      ∧ ∃ chunks, store2 = store ++ chunks ∧ chunks ≠ []
          ∧ ∀ c ∈ chunks, c.filename = filename
            ∧ c.filename
              ≠ (pathSplitExt filename).1 ++ "_" ++ hex8 ++ (pathSplitExt filename).2
            ∧ ∃ k, c.id = filename ++ "-" ++ pyStr k := by
  have hrenlen : ((pathSplitExt filename).1 ++ "_" ++ hex8
      ++ (pathSplitExt filename).2).length = filename.length + 9 := by
    have hsplit := congrArg String.length (pathSplitExt_append filename)
    rw [String.length_append] at hsplit
    rw [String.length_append, String.length_append, String.length_append]
    have hu : ("_" : String).length = 1 := rfl
    omega
  have hproc : process_pdf extractedText filename
      = Except.ok ⟨filename, splitIntoSentences (pyStrip extractedText)⟩ := by
    rw [process_pdf]
    simp [htext]
  obtain ⟨chunks, hadd, hlen, hmem⟩ := add_documents_chunks_spec store
    ⟨filename, splitIntoSentences (pyStrip extractedText)⟩
  have hsne : splitIntoSentences (pyStrip extractedText) ≠ [] := by
    refine splitIntoSentences_ne_nil_of_stripped ?_ ?_
    · intro hnil
      exact htext ((pyStrip_eq_empty_iff extractedText).mpr
        (by simpa [pyStrip] using hnil))
    · have := pyStripL_noLead extractedText.data
      simpa [pyStrip] using this
  refine ⟨(save_uploaded_file cfg fs file_content filename hex8).1,
    VectorStore.add_documents store ⟨filename, splitIntoSentences (pyStrip extractedText)⟩,
    ⟨"PDF uploaded and processed successfully", filename,
      VectorStore.count_documents (VectorStore.add_documents store
        ⟨filename, splitIntoSentences (pyStrip extractedText)⟩)⟩,
    ?_, ?_, ?_, hrenlen, rfl, chunks, hadd, ?_, ?_⟩
  · rw [upload_pdf, hpdf, hproc]
    rw [if_neg (by simp : ¬ (true = false))]
    rw [if_neg hsize]
  · simp only [save_uploaded_file, hcol, if_true]
  · simp only [save_uploaded_file, hcol, if_true]
    simp [fsWrite]
  · intro hn
    rw [hn] at hlen
    simp at hlen
    exact hsne (List.length_eq_zero.mp (Eq.symm hlen))
  · intro c hc
    obtain ⟨hfn, k, hid⟩ := hmem c hc
    have hfn' : c.filename = filename := hfn
    have hid' : c.id = filename ++ "-" ++ pyStr k := hid
    refine ⟨hfn', ?_, k, hid'⟩
    intro hbad
    have hl := congrArg String.length hbad
    rw [hrenlen, hfn'] at hl
    omega

/-- Witness for C10: uploading `"a.pdf"` over an existing
`"./uploads/a.pdf"` stores the new content at the renamed path while the
response keeps the original name. -/
theorem C10_collision_rename_keeps_original_name_witness :
    ∃ fs2 store2 resp,
      upload_pdf settings [("./uploads/a.pdf", "old")] [] "a.pdf" "new"
          "Hello there." "abcd1234" = Except.ok (fs2, store2, resp)
      ∧ fs2.lookup "./uploads/a_abcd1234.pdf" = some "new"
      ∧ resp.filename = "a.pdf" := by
  obtain ⟨fs2, store2, resp, h1, h2, h3, h4, h5, h6⟩ :=
    C10_collision_rename_keeps_original_name settings [("./uploads/a.pdf", "old")]
      [] "a.pdf" "new" "Hello there." "abcd1234" (by decide) (by decide)
      (by decide) (by decide) (by decide)
  refine ⟨fs2, store2, resp, h1, ?_, h5⟩
  have hpath : settings.upload_dir ++ "/"
      ++ ((pathSplitExt "a.pdf").1 ++ "_" ++ "abcd1234" ++ (pathSplitExt "a.pdf").2)
      = "./uploads/a_abcd1234.pdf" := by decide
  rw [hpath] at h3
  exact h3
